import Mathlib

/-!
Verification of the structural-recovery pipeline of `paper_parser_extractor.py`
(LawRevsAnalytics). Text is modelled as `List Char`; Python strings and their
methods (`split`, `strip`, `readlines`, slicing, `title`, `upper`, ...) are
embedded as executable functions over character lists, restricted to the ASCII
behaviour the pipeline relies on. Word counts are exact; the float constants
0.95 / 1.05 / 0.6 of the source are embedded as the exact rationals 19/20,
21/20 and 3/5 (cross-multiplied integer comparisons), an idealisation that
agrees with the double-precision comparisons at every realistic size.
-/

/-- Whitespace as recognised by Python's `str.split()` / `str.strip()`
(ASCII fragment: space, tab, newline, carriage return, vertical tab, form feed). -/
def isPySpace (c : Char) : Bool :=
  c = ' ' || c = '\t' || c = '\n' || c = '\r' || c = '\x0b' || c = '\x0c'

/-- Python `text.split()` (no separator argument): the list of maximal runs of
non-whitespace characters; empty tokens never occur. -/
def pySplit : List Char → List (List Char)
  | [] => []
  | [c] => if isPySpace c then [] else [[c]]
  | c :: d :: cs =>
    if isPySpace c then pySplit (d :: cs)
    else if isPySpace d then [c] :: pySplit (d :: cs)
    else
      match pySplit (d :: cs) with
      | [] => [[c]]
      | w :: rest => (c :: w) :: rest

/-- Word-count state machine: `cntAux inWord cs` counts the words of `cs`,
`inWord` recording whether the previous character was part of a word.
Used only to reason about `pySplit` lengths. -/
def cntAux : Bool → List Char → Nat
  | _, [] => 0
  | b, c :: cs => if isPySpace c then cntAux false cs else (if b then 0 else 1) + cntAux true cs

/-- State of the word-count machine after reading a list. -/
def endSt : Bool → List Char → Bool
  | b, [] => b
  | _, c :: cs => if isPySpace c then endSt false cs else endSt true cs

/-- Number of words of a character list, as Python's `len(text.split())`. -/
def countW (l : List Char) : Nat := (pySplit l).length

/-- Embedding of `count_words_in_string` (src lines 533-547): split the string
on whitespace and return the number of words, except that zero words yields
`None` rather than `0`. -/
def count_words_in_string (l : List Char) : Option Nat :=
  let n := (pySplit l).length
  if n = 0 then none else some n

/-- Embedding of Python `file.readlines()` applied to the file content: split
after every newline character, each line keeping its trailing newline; a final
fragment without a newline is kept as the last line. -/
def pyReadlines : List Char → List (List Char)
  | [] => []
  | c :: cs =>
    if c = '\n' then ['\n'] :: pyReadlines cs
    else
      match pyReadlines cs with
      | [] => [[c]]
      | w :: rest => (c :: w) :: rest

/-- Whether a line ends with a newline character. -/
def endsNL (l : List Char) : Bool := l.getLast? == some '\n'

/-- Whether the last character of a list is whitespace. -/
def endsWS (l : List Char) : Bool :=
  match l.getLast? with
  | some c => isPySpace c
  | none => false

/-- Well-formed line lists: every line except possibly the last ends with a
newline, as `readlines` guarantees. -/
def wfLines : List (List Char) → Prop
  | [] => True
  | l :: rest => (rest = [] ∨ endsNL l = true) ∧ wfLines rest

theorem countW_eq_cntAux (l : List Char) : countW l = cntAux false l := by
  unfold countW
  induction l with
  | nil => rfl
  | cons c tail ih =>
    cases tail with
    | nil =>
      by_cases h : isPySpace c = true <;> simp [pySplit, cntAux, h]
    | cons d cs =>
      by_cases hc : isPySpace c = true
      · simpa [pySplit, cntAux, hc] using ih
      · by_cases hd : isPySpace d = true
        · have ih2 : (pySplit (d :: cs)).length = cntAux false cs := by
            simpa [cntAux, hd] using ih
          simp [pySplit, cntAux, hc, hd, ih2]
          omega
        · have hstep : cntAux false (d :: cs) = 1 + cntAux true cs := by
            simp [cntAux, hd]
          rcases hps : pySplit (d :: cs) with _ | ⟨w, rest⟩
          · have : (0 : Nat) = cntAux false (d :: cs) := by
              simpa [hps] using ih
            simp [pySplit, cntAux, hc, hd, hps]
            omega
          · have hlen : (w :: rest).length = cntAux false (d :: cs) := by
              simpa [hps] using ih
            simp [pySplit, cntAux, hc, hd, hps] at hlen ⊢
            omega

theorem cntAux_append (x y : List Char) (b : Bool) :
    cntAux b (x ++ y) = cntAux b x + cntAux (endSt b x) y := by
  induction x generalizing b with
  | nil => simp [cntAux, endSt]
  | cons c cs ih =>
    by_cases h : isPySpace c = true <;> simp [cntAux, endSt, h, ih] <;> omega

theorem cntAux_true_le (l : List Char) : cntAux true l ≤ cntAux false l := by
  induction l with
  | nil => simp [cntAux]
  | cons c cs ih =>
    by_cases h : isPySpace c = true <;> simp [cntAux, h] <;> omega

theorem cntAux_state_le (b : Bool) (l : List Char) : cntAux b l ≤ cntAux false l := by
  cases b
  · exact le_refl _
  · exact cntAux_true_le l

theorem countW_append_le (x y : List Char) : countW (x ++ y) ≤ countW x + countW y := by
  rw [countW_eq_cntAux, countW_eq_cntAux, countW_eq_cntAux, cntAux_append]
  exact Nat.add_le_add_left (cntAux_state_le _ y) _

theorem endSt_ws_last (L : List Char) (a : Char) (b : Bool) (ha : isPySpace a = true) :
    endSt b (L ++ [a]) = false := by
  induction L generalizing b with
  | nil => simp [endSt, ha]
  | cons c cs ih =>
    by_cases h : isPySpace c = true <;> simp [endSt, h, ih]

theorem countW_append_endsWS (x y : List Char) (hx : endsWS x = true) :
    countW (x ++ y) = countW x + countW y := by
  rw [countW_eq_cntAux, countW_eq_cntAux, countW_eq_cntAux, cntAux_append]
  rcases List.eq_nil_or_concat x with rfl | ⟨L, a, rfl⟩
  · simp [endsWS] at hx
  · have ha : isPySpace a = true := by
      simpa [endsWS, List.getLast?_concat] using hx
    rw [List.concat_eq_append, endSt_ws_last L a false ha]

/-- Python `text.lstrip()`: remove leading whitespace. -/
def lstripWS (l : List Char) : List Char := l.dropWhile isPySpace

/-- Python `text.rstrip()`: remove trailing whitespace. -/
def rstripWS (l : List Char) : List Char := ((l.reverse).dropWhile isPySpace).reverse

/-- Python `text.strip()`: remove leading and trailing whitespace. -/
def stripWS (l : List Char) : List Char := lstripWS (rstripWS l)

/-- Python `text.upper()` (ASCII fragment). -/
def pyUpper (l : List Char) : List Char := l.map Char.toUpper

/-- Helper for `pyTitle`: the flag records whether the previous character was
alphabetic. -/
def pyTitleAux : Bool → List Char → List Char
  | _, [] => []
  | prev, c :: cs =>
    if c.isAlpha then (if prev then c.toLower else c.toUpper) :: pyTitleAux true cs
    else c :: pyTitleAux false cs

/-- Python `text.title()` (ASCII fragment): the first letter of every maximal
alphabetic run is uppercased, the following letters lowercased. -/
def pyTitle (l : List Char) : List Char := pyTitleAux false l

/-- Embedding of `is_title_or_uppercase` (src lines 1426-1428). -/
def is_title_or_uppercase (l : List Char) : Bool := l == pyTitle l || l == pyUpper l

/-- Embedding of `is_mostly_uppercase` (src lines 1430-1434): at least 75% of
the characters are uppercase letters; an empty line counts as 0%. The float
percentage test `(u/len)*100 >= 75` is embedded exactly as `4*u >= 3*len`. -/
def is_mostly_uppercase (l : List Char) : Bool :=
  if l.length = 0 then false
  else decide (4 * l.countP (fun c => c.isUpper) ≥ 3 * l.length)

/-- The characters of Python's `string.punctuation`. -/
def punctChars : List Char := "!\"#$%&'()*+,-./:;<=>?@[\\]^_`\x7b|\x7d~".toList

/-- Embedding of `ends_with_punctuation` (src lines 1436-1441): the line ends
with a punctuation character other than dash and comma. -/
def ends_with_punctuation (l : List Char) : Bool :=
  match l.getLast? with
  | some c => punctChars.contains c && !(c = '-' || c = ',')
  | none => false

/-- Embedding of `can_join` (src lines 1443-1454): an empty (stripped) next
line can be joined; a title-case, uppercase or mostly-uppercase next line
cannot; anything else can. -/
def can_join (next_line : List Char) : Bool :=
  let s := stripWS next_line
  if s.isEmpty then true
  else !(is_title_or_uppercase s || is_mostly_uppercase s)

/-- The condition of src lines 1470-1473 under which a line is NOT a candidate
for joining with its successor: empty after rstrip, title-case or uppercase,
mostly uppercase, or ending in punctuation other than dash and comma. -/
def noJoinLine (l : List Char) : Bool :=
  let s := rstripWS l
  s.isEmpty || is_title_or_uppercase s || is_mostly_uppercase s || ends_with_punctuation s

/-- The seam rule of src lines 1486-1495, applied to the rstripped current
line `s` and the raw next line: a trailing dash is removed and the lstripped
next line appended directly; after a trailing comma a single space is inserted
unless the next line starts with a space character (in which case the
lstripped next line is appended with no space); otherwise a single space is
inserted. -/
def joinSeam (s next_line : List Char) : List Char :=
  if s.getLast? == some '-' then s.dropLast ++ lstripWS next_line
  else if s.getLast? == some ',' then
    if !(next_line.head? == some ' ') then s ++ ' ' :: lstripWS next_line
    else s ++ lstripWS next_line
  else s ++ ' ' :: lstripWS next_line

/-- The line-scanning loop of `remove_extra_lines_main` (src lines 1462-1502):
a non-candidate line is kept; a candidate line whose successor passes
`can_join` is joined with it by the seam rule (consuming both); otherwise the
line is kept. -/
def joinPass : List (List Char) → List (List Char)
  | [] => []
  | [l] => [l]
  | l :: l2 :: rest =>
    if noJoinLine l then l :: joinPass (l2 :: rest)
    else if can_join l2 then joinSeam (rstripWS l) l2 :: joinPass rest
    else l :: joinPass (l2 :: rest)

/-- Embedding of `remove_extra_lines_main` (src lines 1456-1530) on the file
content: run the joining pass, recount words, and commit the result only when
the 5% word-count guard passes; otherwise the file is left unchanged. A word
count of zero makes `count_words_in_string` return `None`, so the guard
comparison raises `TypeError` in Python, the handler logs, and the file is
likewise unchanged. The float guard `orig > cur*1.05 or orig < cur*0.95` is
embedded exactly as `20*orig > 21*cur or 20*orig < 19*cur`. -/
def remove_extra_lines_main (text : List Char) (orig_length : Nat) : List Char :=
  match count_words_in_string (joinPass (pyReadlines text)).flatten with
  | none => text
  | some current =>
    if 20 * orig_length > 21 * current || 20 * orig_length < 19 * current then text
    else (joinPass (pyReadlines text)).flatten


theorem countW_nil : countW [] = 0 := rfl

theorem cntAux_ws_cons (b : Bool) (a : Char) (y : List Char) (ha : isPySpace a = true) :
    cntAux b (a :: y) = cntAux false y := by
  simp [cntAux, ha]

theorem countW_append_ws_cons (x y : List Char) (a : Char) (ha : isPySpace a = true) :
    countW (x ++ a :: y) = countW x + countW y := by
  rw [countW_eq_cntAux, countW_eq_cntAux, countW_eq_cntAux, cntAux_append,
    cntAux_ws_cons _ a y ha]

theorem cntAux_all_ws (b : Bool) (l : List Char) (h : ∀ c ∈ l, isPySpace c = true) :
    cntAux b l = 0 := by
  induction l generalizing b with
  | nil => rfl
  | cons c cs ih =>
    have hc : isPySpace c = true := h c (by simp)
    rw [cntAux_ws_cons _ _ _ hc]
    exact ih false (fun d hd => h d (List.mem_cons_of_mem _ hd))

theorem rstripWS_spec (l : List Char) :
    l = rstripWS l ++ ((l.reverse).takeWhile isPySpace).reverse := by
  unfold rstripWS
  rw [← List.reverse_append, List.takeWhile_append_dropWhile, List.reverse_reverse]

theorem countW_rstripWS (l : List Char) : countW (rstripWS l) = countW l := by
  conv_rhs => rw [rstripWS_spec l]
  rw [countW_eq_cntAux, countW_eq_cntAux, cntAux_append]
  have h0 : cntAux (endSt false (rstripWS l)) ((l.reverse.takeWhile isPySpace).reverse) = 0 :=
    cntAux_all_ws _ _ (fun c hc => List.mem_takeWhile_imp (List.mem_reverse.mp hc))
  omega

theorem countW_lstripWS (l : List Char) : countW (lstripWS l) = countW l := by
  rw [countW_eq_cntAux, countW_eq_cntAux]
  unfold lstripWS
  induction l with
  | nil => rfl
  | cons c cs ih =>
    by_cases h : isPySpace c = true
    · rw [List.dropWhile_cons_of_pos (by simp [h]), ih, cntAux_ws_cons _ _ _ h]
    · rw [List.dropWhile_cons_of_neg (by simp [h])]

theorem countW_dropLast_le (s : List Char) : countW s.dropLast ≤ countW s := by
  rcases List.eq_nil_or_concat s with rfl | ⟨L, a, rfl⟩
  · simp
  · rw [List.concat_eq_append, List.dropLast_concat, countW_eq_cntAux, countW_eq_cntAux,
      cntAux_append]
    omega

theorem countW_joinSeam_le (l l2 : List Char) :
    countW (joinSeam (rstripWS l) l2) ≤ countW l + countW l2 := by
  unfold joinSeam
  have hs := countW_rstripWS l
  have hl2 := countW_lstripWS l2
  have hsp : isPySpace ' ' = true := by simp [isPySpace]
  by_cases h1 : ((rstripWS l).getLast? == some '-') = true
  · rw [if_pos h1]
    calc countW ((rstripWS l).dropLast ++ lstripWS l2)
        ≤ countW (rstripWS l).dropLast + countW (lstripWS l2) := countW_append_le _ _
      _ ≤ countW (rstripWS l) + countW (lstripWS l2) :=
          Nat.add_le_add_right (countW_dropLast_le _) _
      _ = countW l + countW l2 := by rw [hs, hl2]
  · rw [if_neg h1]
    by_cases h2 : ((rstripWS l).getLast? == some ',') = true
    · rw [if_pos h2]
      by_cases h3 : (l2.head? == some ' ') = true
      · rw [if_neg (by simp [h3])]
        calc countW (rstripWS l ++ lstripWS l2)
            ≤ countW (rstripWS l) + countW (lstripWS l2) := countW_append_le _ _
          _ = countW l + countW l2 := by rw [hs, hl2]
      · rw [if_pos (by simp [h3])]
        rw [countW_append_ws_cons _ _ ' ' hsp, hs, hl2]
    · rw [if_neg h2]
      rw [countW_append_ws_cons _ _ ' ' hsp, hs, hl2]

theorem endsNL_endsWS (l : List Char) (h : endsNL l = true) : endsWS l = true := by
  unfold endsNL at h
  unfold endsWS
  rcases hg : l.getLast? with _ | c
  · simp [hg] at h
  · simp [hg] at h
    simp [h, isPySpace]

theorem countW_flatten_cons (l : List Char) (rest : List (List Char))
    (h : rest = [] ∨ endsNL l = true) :
    countW (List.flatten (l :: rest)) = countW l + countW rest.flatten := by
  rcases h with rfl | h
  · simp [countW_nil]
  · rw [List.flatten_cons, countW_append_endsWS _ _ (endsNL_endsWS l h)]

theorem joinPass_countW_le (ls : List (List Char)) (hwf : wfLines ls) :
    countW (joinPass ls).flatten ≤ countW ls.flatten := by
  induction ls using joinPass.induct with
  | case1 => simp [joinPass]
  | case2 l => simp [joinPass]
  | case3 l l2 rest hno ih =>
    rw [joinPass, if_pos hno]
    rw [countW_flatten_cons l (l2 :: rest) (Or.inr (hwf.1.resolve_left (by simp))),
      countW_flatten_cons l (joinPass (l2 :: rest)) (Or.inr (hwf.1.resolve_left (by simp)))]
    exact Nat.add_le_add_left (ih hwf.2) _
  | case4 l l2 rest hno hcan ih =>
    rw [joinPass, if_neg (by simp [hno]), if_pos hcan]
    rw [countW_flatten_cons l (l2 :: rest) (Or.inr (hwf.1.resolve_left (by simp))),
      countW_flatten_cons l2 rest hwf.2.1]
    calc countW (List.flatten (joinSeam (rstripWS l) l2 :: joinPass rest))
        ≤ countW (joinSeam (rstripWS l) l2) + countW (joinPass rest).flatten := by
          rw [List.flatten_cons]; exact countW_append_le _ _
      _ ≤ (countW l + countW l2) + countW rest.flatten :=
          Nat.add_le_add (countW_joinSeam_le l l2) (ih hwf.2.2)
      _ = countW l + (countW l2 + countW rest.flatten) := by omega
  | case5 l l2 rest hno hcan ih =>
    rw [joinPass, if_neg (by simp [hno]), if_neg (by simp [hcan])]
    rw [countW_flatten_cons l (l2 :: rest) (Or.inr (hwf.1.resolve_left (by simp))),
      countW_flatten_cons l (joinPass (l2 :: rest)) (Or.inr (hwf.1.resolve_left (by simp)))]
    exact Nat.add_le_add_left (ih hwf.2) _

theorem pyReadlines_eq_nil (t : List Char) (h : pyReadlines t = []) : t = [] := by
  cases t with
  | nil => rfl
  | cons c cs =>
    rw [pyReadlines] at h
    by_cases hc : c = '\n'
    · simp [hc] at h
    · rcases hr : pyReadlines cs with _ | ⟨w, rest⟩ <;> simp [hc, hr] at h

theorem pyReadlines_flatten (t : List Char) : (pyReadlines t).flatten = t := by
  induction t with
  | nil => rfl
  | cons c cs ih =>
    rw [pyReadlines]
    by_cases hc : c = '\n'
    · subst hc
      rw [if_pos rfl, List.flatten_cons, ih]
      rfl
    · rw [if_neg hc]
      rcases hr : pyReadlines cs with _ | ⟨w, rest⟩
      · have : cs = [] := pyReadlines_eq_nil cs hr
        subst this
        rfl
      · rw [hr] at ih
        rw [List.flatten_cons] at ih
        show ((c :: w) :: rest).flatten = c :: cs
        rw [List.flatten_cons, List.cons_append, ih]

theorem pyReadlines_ne_nil_mem (t : List Char) (w : List Char) (hw : w ∈ pyReadlines t) :
    w ≠ [] := by
  induction t generalizing w with
  | nil => simp [pyReadlines] at hw
  | cons c cs ih =>
    rw [pyReadlines] at hw
    by_cases hc : c = '\n'
    · rw [if_pos hc] at hw
      rcases List.mem_cons.mp hw with rfl | h
      · simp
      · exact ih w h
    · rw [if_neg hc] at hw
      rcases hr : pyReadlines cs with _ | ⟨v, rest⟩
      · rw [hr] at hw
        rcases List.mem_cons.mp hw with rfl | h
        · simp
        · simp at h
      · rw [hr] at hw
        rcases List.mem_cons.mp hw with rfl | h
        · simp
        · exact ih w (by rw [hr]; exact List.mem_cons_of_mem _ h)

theorem endsNL_cons (c : Char) (w : List Char) (hw : w ≠ []) :
    endsNL (c :: w) = endsNL w := by
  unfold endsNL
  rcases w with _ | ⟨d, v⟩
  · exact absurd rfl hw
  · rw [List.getLast?_cons_cons]

theorem wfLines_pyReadlines (t : List Char) : wfLines (pyReadlines t) := by
  induction t with
  | nil => exact trivial
  | cons c cs ih =>
    rw [pyReadlines]
    by_cases hc : c = '\n'
    · rw [if_pos hc]
      exact ⟨Or.inr rfl, ih⟩
    · rw [if_neg hc]
      rcases hr : pyReadlines cs with _ | ⟨w, rest⟩
      · exact ⟨Or.inl rfl, trivial⟩
      · rw [hr] at ih
        refine ⟨?_, ih.2⟩
        rcases ih.1 with rfl | h
        · exact Or.inl rfl
        · refine Or.inr ?_
          rw [endsNL_cons c w (pyReadlines_ne_nil_mem cs w (by rw [hr]; simp))]
          exact h

/-- Python slice-index normalisation: a negative index counts from the end of
the sequence, and indices are clamped to `[0, len]`. -/
def pyIdx (len : Nat) (i : Int) : Nat :=
  if i < 0 then (if i + len < 0 then 0 else (i + len).toNat) else min i.toNat len

/-- Python slice `l[a:b]` with `Int` endpoints (as used by
`line[next_period_index - len(abbrev) : next_period_index + 1]` and the
`" v"` look-behind in `add_missing_lines_main`). -/
def pySliceI (l : List Char) (a b : Int) : List Char :=
  (l.take (pyIdx l.length b)).drop (pyIdx l.length a)

/-- Python `line.find('.', t)`: index of the first period at or after `t`,
`None` standing for Python's `-1`. -/
def findDotFrom (l : List Char) (t : Nat) : Option Nat :=
  match (l.drop t).findIdx? (fun c => c = '.') with
  | none => none
  | some k => some (t + k)

/-- The regex `\.\s*\d+` of src line 1567 matched at position `np` (which
holds a period): `some e` gives `match.end()` (period, maximal whitespace run,
maximal nonempty digit run), `none` means no match. -/
def digitMatchEnd (l : List Char) (np : Nat) : Option Nat :=
  let rest := l.drop (np + 1)
  let sp := (rest.takeWhile isPySpace).length
  let dg := ((rest.drop sp).takeWhile (fun c => c.isDigit)).length
  if dg = 0 then none else some (1 + sp + dg)

/-- The whitespace scan of src lines 1577-1579: the first index at or after
`t` holding a non-whitespace character (or the length of the line). -/
def wsRunEnd (l : List Char) (t : Nat) : Nat := t + ((l.drop t).takeWhile isPySpace).length

/-- Insertion of a newline character at position `t` (src line 1583). -/
def insertNL (l : List Char) (t : Nat) : List Char := l.take t ++ '\n' :: l.drop t

/-- The period-scanning `while` loop of `add_missing_lines_main`
(src lines 1548-1590), with explicit fuel. The loop terminates because the
scan position strictly advances relative to the line length at every
iteration, so any fuel at least `line.length + 1` is never exhausted; when
fuel runs out the line is returned unchanged, which is also what every claim
proved below needs. -/
def addLoop : Nat → List (List Char) → List Char → Nat → List Char
  | 0, _, line, _ => line
  | fuel + 1, abbrevs, line, t =>
    if t < line.length then
      match findDotFrom line t with
      | none => line
      | some np =>
        let isAbb := abbrevs.any
          (fun a => pySliceI line ((np : Int) - a.length) ((np : Int) + 1) == a)
        let isV := pySliceI line ((np : Int) - 2) (np : Int) == " v".toList ||
                   pySliceI line ((np : Int) - 2) (np : Int) == " V".toList
        if isAbb || isV then addLoop fuel abbrevs line (np + 1)
        else
          let t1 := match digitMatchEnd line np with
            | some e => np + e
            | none => np + 1
          if t1 < line.length && isPySpace (line.getD t1 'a') then
            let nci := wsRunEnd line t1
            if nci < line.length && (line.getD nci 'a').isUpper then
              addLoop fuel abbrevs (insertNL line t1) nci
            else addLoop fuel abbrevs line t1
          else addLoop fuel abbrevs line t1
    else line

/-- Per-line processing of `add_missing_lines_main` (src lines 1541-1593):
blank lines are preserved as they are, other lines go through the
period-scanning loop. -/
def procAddLine (abbrevs : List (List Char)) (line : List Char) : List Char :=
  if (stripWS line).isEmpty then line
  else addLoop (line.length + 1) abbrevs line 0

/-- Embedding of `add_missing_lines_main` (src lines 1534-1618) on the file
content: insert sentence breaks line by line, recount words, and commit the
result only when the 5% word-count guard passes; otherwise (including the
`None` word count of an empty result, whose comparison raises and is caught)
the file is left unchanged. -/
def add_missing_lines_main (text : List Char) (orig_length : Nat)
    (abbrevs : List (List Char)) : List Char :=
  match count_words_in_string ((pyReadlines text).map (procAddLine abbrevs)).flatten with
  | none => text
  | some current =>
    if 20 * orig_length > 21 * current || 20 * orig_length < 19 * current then text
    else ((pyReadlines text).map (procAddLine abbrevs)).flatten

theorem countW_insertNL (l : List Char) (t : Nat) (ht : t < l.length)
    (hws : isPySpace (l.getD t 'a') = true) :
    countW (insertNL l t) = countW l := by
  have hdrop : l.drop t = l.getD t 'a' :: l.drop (t + 1) := by
    rw [List.getD_eq_getElem l 'a' ht]
    exact (List.getElem_cons_drop l t ht).symm
  have h1 : countW (insertNL l t) = countW (l.take t) + countW (l.drop (t + 1)) := by
    unfold insertNL
    rw [hdrop, countW_append_ws_cons _ _ '\n' (by simp [isPySpace]),
      countW_eq_cntAux (l.getD t 'a' :: l.drop (t + 1)), cntAux_ws_cons _ _ _ hws,
      ← countW_eq_cntAux]
  have h2 : countW l = countW (l.take t) + countW (l.drop (t + 1)) := by
    conv_lhs => rw [← List.take_append_drop t l, hdrop]
    rw [countW_append_ws_cons _ _ _ hws]
  rw [h1, h2]

theorem getLast?_insertNL (l : List Char) (t : Nat) (ht : t < l.length) :
    (insertNL l t).getLast? = l.getLast? := by
  have hne : l.drop t ≠ [] := by
    intro h
    have := List.drop_eq_nil_iff.mp h
    omega
  unfold insertNL
  rw [show l.take t ++ '\n' :: l.drop t = (l.take t ++ ['\n']) ++ l.drop t by simp]
  rw [List.getLast?_append_of_ne_nil _ hne]
  conv_rhs => rw [← List.take_append_drop t l]
  rw [List.getLast?_append_of_ne_nil _ hne]

theorem addLoop_countW (fuel : Nat) (abbrevs : List (List Char)) (line : List Char) (t : Nat) :
    countW (addLoop fuel abbrevs line t) = countW line := by
  induction fuel generalizing line t with
  | zero => rfl
  | succ fuel ih =>
    rw [addLoop]
    by_cases h0 : t < line.length
    · rw [if_pos h0]
      rcases hfd : findDotFrom line t with _ | np
      · rfl
      · simp only []
        by_cases hab : (abbrevs.any
            (fun a => pySliceI line ((np : Int) - a.length) ((np : Int) + 1) == a) ||
            (pySliceI line ((np : Int) - 2) (np : Int) == " v".toList ||
             pySliceI line ((np : Int) - 2) (np : Int) == " V".toList)) = true
        · rw [if_pos hab]
          exact ih line (np + 1)
        · rw [if_neg hab]
          set t1 := (match digitMatchEnd line np with
            | some e => np + e
            | none => np + 1) with ht1
          by_cases hg : (t1 < line.length && isPySpace (line.getD t1 'a')) = true
          · rw [if_pos hg]
            have hg2 := hg
            simp only [Bool.and_eq_true, decide_eq_true_eq] at hg2
            have ht1len : t1 < line.length := hg2.1
            have hws : isPySpace (line.getD t1 'a') = true := hg2.2
            by_cases hup : (wsRunEnd line t1 < line.length &&
                (line.getD (wsRunEnd line t1) 'a').isUpper) = true
            · rw [if_pos hup]
              rw [ih (insertNL line t1) (wsRunEnd line t1)]
              exact countW_insertNL line t1 ht1len hws
            · rw [if_neg hup]
              exact ih line t1
          · rw [if_neg hg]
            exact ih line t1
    · rw [if_neg h0]

theorem addLoop_getLast? (fuel : Nat) (abbrevs : List (List Char)) (line : List Char) (t : Nat) :
    (addLoop fuel abbrevs line t).getLast? = line.getLast? := by
  induction fuel generalizing line t with
  | zero => rfl
  | succ fuel ih =>
    rw [addLoop]
    by_cases h0 : t < line.length
    · rw [if_pos h0]
      rcases hfd : findDotFrom line t with _ | np
      · rfl
      · simp only []
        by_cases hab : (abbrevs.any
            (fun a => pySliceI line ((np : Int) - a.length) ((np : Int) + 1) == a) ||
            (pySliceI line ((np : Int) - 2) (np : Int) == " v".toList ||
             pySliceI line ((np : Int) - 2) (np : Int) == " V".toList)) = true
        · rw [if_pos hab]
          exact ih line (np + 1)
        · rw [if_neg hab]
          set t1 := (match digitMatchEnd line np with
            | some e => np + e
            | none => np + 1) with ht1
          by_cases hg : (t1 < line.length && isPySpace (line.getD t1 'a')) = true
          · rw [if_pos hg]
            have hg2 := hg
            simp only [Bool.and_eq_true, decide_eq_true_eq] at hg2
            by_cases hup : (wsRunEnd line t1 < line.length &&
                (line.getD (wsRunEnd line t1) 'a').isUpper) = true
            · rw [if_pos hup]
              rw [ih (insertNL line t1) (wsRunEnd line t1)]
              exact getLast?_insertNL line t1 hg2.1
            · rw [if_neg hup]
              exact ih line t1
          · rw [if_neg hg]
            exact ih line t1
    · rw [if_neg h0]

theorem procAddLine_countW (abbrevs : List (List Char)) (line : List Char) :
    countW (procAddLine abbrevs line) = countW line := by
  unfold procAddLine
  by_cases h : (stripWS line).isEmpty = true
  · rw [if_pos h]
  · rw [if_neg h]
    exact addLoop_countW _ _ _ _

theorem procAddLine_getLast? (abbrevs : List (List Char)) (line : List Char) :
    (procAddLine abbrevs line).getLast? = line.getLast? := by
  unfold procAddLine
  by_cases h : (stripWS line).isEmpty = true
  · rw [if_pos h]
  · rw [if_neg h]
    exact addLoop_getLast? _ _ _ _

theorem addPass_flatten_countW (abbrevs : List (List Char)) (ls : List (List Char))
    (hwf : wfLines ls) :
    countW ((ls.map (procAddLine abbrevs)).flatten) = countW ls.flatten := by
  induction ls with
  | nil => rfl
  | cons l rest ih =>
    rw [List.map_cons]
    rw [countW_flatten_cons l rest hwf.1]
    rw [countW_flatten_cons (procAddLine abbrevs l) (rest.map (procAddLine abbrevs)) ?_]
    · rw [procAddLine_countW, ih hwf.2]
    · rcases hwf.1 with rfl | h
      · exact Or.inl rfl
      · refine Or.inr ?_
        unfold endsNL at h ⊢
        rw [procAddLine_getLast?]
        exact h

theorem guard_step_cases (text text2 : List Char) (orig : Nat) :
    (match count_words_in_string text2 with
     | none => text
     | some current =>
       if 20 * orig > 21 * current || 20 * orig < 19 * current then text else text2) = text ∨
    ((match count_words_in_string text2 with
      | none => text
      | some current =>
        if 20 * orig > 21 * current || 20 * orig < 19 * current then text else text2) = text2 ∧
     20 * orig ≤ 21 * countW text2 ∧ 19 * countW text2 ≤ 20 * orig) := by
  rcases hc : count_words_in_string text2 with _ | current
  · exact Or.inl rfl
  · have hcur : current = countW text2 := by
      unfold count_words_in_string at hc
      by_cases h0 : (pySplit text2).length = 0
      · simp [h0] at hc
      · simp [h0] at hc
        rw [← hc]
        rfl
    show (if 20 * orig > 21 * current || 20 * orig < 19 * current then text else text2) = text ∨
      ((if 20 * orig > 21 * current || 20 * orig < 19 * current then text else text2) = text2 ∧
       20 * orig ≤ 21 * countW text2 ∧ 19 * countW text2 ≤ 20 * orig)
    by_cases hguard : (20 * orig > 21 * current ∨ 20 * orig < 19 * current)
    · rw [if_pos (by simpa [decide_eq_true_eq] using hguard)]
      exact Or.inl rfl
    · rw [if_neg (by simpa [decide_eq_true_eq] using hguard)]
      push_neg at hguard
      subst hcur
      exact Or.inr ⟨rfl, hguard.1, hguard.2⟩

/-- C1 (Reflow Engine word-count guard). For every main-text input, a single
run of the line-joining pass `remove_extra_lines_main`, and likewise of the
sentence-splitting pass `add_missing_lines_main`, given the pre-pass word
count as its `orig_length` argument, either leaves the text unchanged or
commits an output whose word count lies within `[0.95, 1.05]` times the
pre-pass word count (expressed exactly: `19*orig ≤ 20*new` and
`20*new ≤ 21*orig`); an output deviating by more than 5% is never committed. -/
theorem reflow_passes_word_count_guard (text : List Char) (abbrevs : List (List Char)) :
    (remove_extra_lines_main text (countW text) = text ∨
      (19 * countW text ≤ 20 * countW (remove_extra_lines_main text (countW text)) ∧
       20 * countW (remove_extra_lines_main text (countW text)) ≤ 21 * countW text)) ∧
    (add_missing_lines_main text (countW text) abbrevs = text ∨
      (19 * countW text ≤ 20 * countW (add_missing_lines_main text (countW text) abbrevs) ∧
       20 * countW (add_missing_lines_main text (countW text) abbrevs) ≤ 21 * countW text)) := by
  constructor
  · have hmono : countW (joinPass (pyReadlines text)).flatten ≤ countW text := by
      have h := joinPass_countW_le (pyReadlines text) (wfLines_pyReadlines text)
      rwa [pyReadlines_flatten text] at h
    have hcases := guard_step_cases text (joinPass (pyReadlines text)).flatten (countW text)
    rcases hcases with h | ⟨heq, h1, h2⟩
    · exact Or.inl h
    · refine Or.inr ?_
      show 19 * countW text ≤ 20 * countW (remove_extra_lines_main text (countW text)) ∧
        20 * countW (remove_extra_lines_main text (countW text)) ≤ 21 * countW text
      rw [show remove_extra_lines_main text (countW text) =
        (joinPass (pyReadlines text)).flatten from heq]
      omega
  · have heqw : countW ((pyReadlines text).map (procAddLine abbrevs)).flatten = countW text := by
      have h := addPass_flatten_countW abbrevs (pyReadlines text) (wfLines_pyReadlines text)
      rwa [pyReadlines_flatten text] at h
    have hcases := guard_step_cases text ((pyReadlines text).map (procAddLine abbrevs)).flatten
      (countW text)
    rcases hcases with h | ⟨heq, h1, h2⟩
    · exact Or.inl h
    · refine Or.inr ?_
      rw [show add_missing_lines_main text (countW text) abbrevs =
        ((pyReadlines text).map (procAddLine abbrevs)).flatten from heq]
      omega

/-- C2 counterexample. The claim states that when a join-candidate line's
successor is empty the two lines are NOT joined, and that a trailing comma
always keeps a single separating space. The code does neither: on the input
`"ab\n\ncd\n"` the candidate line `"ab\n"` is joined across its empty
successor, and the committed output is `"ab cd\n"`; and on the lines
`"ab,\n"`, `" cd\n"` the comma seam appends the lstripped successor with no
separating space, producing the single line `"ab,cd\n"`. -/
theorem joining_pass_claim_counterexample :
    remove_extra_lines_main ("ab\n\ncd\n".toList) 2 = ("ab cd\n".toList) ∧
    ("ab cd\n".toList ≠ "ab\n\ncd\n".toList) ∧
    joinPass [("ab,\n".toList), (" cd\n".toList)] = [("ab,cd\n".toList)] := by
  refine ⟨by decide, by decide, by decide⟩

/-- C2 (amended). For every line that is a join candidate (`noJoinLine`
false: non-empty after rstrip, not title-case or uppercase, not mostly
uppercase, not ending in punctuation other than dash and comma): if the
stripped successor is non-empty and title-case/uppercase or mostly uppercase,
the two lines are not joined; otherwise — including when the successor is
empty or whitespace-only — they are joined, with the seam rule: a trailing
dash is removed and the lstripped successor appended directly; after a
trailing comma a single space is inserted only when the successor does not
begin with a space character, and otherwise the lstripped successor is
appended with no space; any other ending gets a single separating space. -/
theorem joining_pass_amended (l l2 : List Char) (rest : List (List Char))
    (hcand : noJoinLine l = false) :
    (stripWS l2 ≠ [] →
      (is_title_or_uppercase (stripWS l2) = true ∨ is_mostly_uppercase (stripWS l2) = true) →
      joinPass (l :: l2 :: rest) = l :: joinPass (l2 :: rest)) ∧
    (stripWS l2 = [] → can_join l2 = true) ∧
    (can_join l2 = true →
      joinPass (l :: l2 :: rest) = joinSeam (rstripWS l) l2 :: joinPass rest ∧
      ((rstripWS l).getLast? = some '-' →
        joinSeam (rstripWS l) l2 = (rstripWS l).dropLast ++ lstripWS l2) ∧
      ((rstripWS l).getLast? = some ',' → l2.head? ≠ some ' ' →
        joinSeam (rstripWS l) l2 = rstripWS l ++ ' ' :: lstripWS l2) ∧
      ((rstripWS l).getLast? = some ',' → l2.head? = some ' ' →
        joinSeam (rstripWS l) l2 = rstripWS l ++ lstripWS l2) ∧
      ((rstripWS l).getLast? ≠ some '-' → (rstripWS l).getLast? ≠ some ',' →
        joinSeam (rstripWS l) l2 = rstripWS l ++ ' ' :: lstripWS l2)) := by
  refine ⟨?_, ?_, ?_⟩
  · intro hne htu
    have hcj : can_join l2 = false := by
      unfold can_join
      rw [if_neg (by simpa [List.isEmpty_iff] using hne)]
      rcases htu with h | h <;> simp [h]
    rw [joinPass, if_neg (by simp [hcand]), if_neg (by simp [hcj])]
  · intro he
    unfold can_join
    rw [if_pos (by simpa [List.isEmpty_iff] using he)]
  · intro hcj
    refine ⟨by rw [joinPass, if_neg (by simp [hcand]), if_pos hcj], ?_, ?_, ?_, ?_⟩
    · intro hdash
      unfold joinSeam
      rw [if_pos (by simp [hdash])]
    · intro hcomma hsp
      unfold joinSeam
      rw [if_neg (by simp [hcomma]), if_pos (by simp [hcomma]), if_pos (by simpa using hsp)]
    · intro hcomma hsp
      unfold joinSeam
      rw [if_neg (by simp [hcomma]), if_pos (by simp [hcomma]), if_neg (by simp [hsp])]
    · intro hdash hcomma
      unfold joinSeam
      rw [if_neg (by simp [hdash]), if_neg (by simp [hcomma])]

/-- Closed witness for the amended C2 theorem at concrete inputs exercising
the comma seam with a space-initial successor. -/
theorem joining_pass_amended_witness :
    noJoinLine ("ab,\n".toList) = false ∧
    joinPass [("ab,\n".toList), (" cd\n".toList)] = [("ab,cd\n".toList)] := by
  refine ⟨by decide, ?_⟩
  have h := joining_pass_amended ("ab,\n".toList) (" cd\n".toList) [] (by decide)
  have h2 := h.2.2 (by decide)
  rw [h2.1, h2.2.2.2.1 (by decide) (by decide)]
  decide

/-- C8: `count_words_in_string` returns `None` (not `0`) on every string with
no words, i.e. every string all of whose characters are whitespace, the empty
string included. -/
theorem count_words_in_string_no_words (l : List Char)
    (h : ∀ c ∈ l, isPySpace c = true) :
    count_words_in_string l = none := by
  have h0 : (pySplit l).length = 0 := by
    have := countW_eq_cntAux l
    unfold countW at this
    rw [this, cntAux_all_ws false l h]
  unfold count_words_in_string
  simp [h0]

/-- Closed witness for C8 on the whitespace-only string `"  \t\n"`. -/
theorem count_words_in_string_no_words_witness :
    count_words_in_string ("  \t\n".toList) = none :=
  count_words_in_string_no_words ("  \t\n".toList) (by decide)

/-- Python `text.split(' ')` (explicit single-space separator): split at every
space character, keeping empty fragments; the empty string yields `[""]`. -/
def splitSp : List Char → List (List Char)
  | [] => [[]]
  | c :: cs =>
    match splitSp cs with
    | [] => [[]]
    | w :: rest => if c = ' ' then [] :: w :: rest else (c :: w) :: rest

/-- Python `" ".join(words)`. -/
def joinSp : List (List Char) → List Char
  | [] => []
  | [w] => w
  | w :: w2 :: rest => w ++ ' ' :: joinSp (w2 :: rest)

/-- Python `text.isspace()`: non-empty and all characters whitespace. -/
def pyIsSpaceStr (l : List Char) : Bool := !l.isEmpty && l.all isPySpace

/-- The `if all([start, mid, end])` guard of src line 1313: the three computed
segments are persisted (and the paths recorded) only when all are non-empty
strings. -/
def smeGuardTriple (s m e : List Char) : Option (List Char × List Char × List Char) :=
  if !s.isEmpty && !m.isEmpty && !e.isEmpty then some (s, m, e) else none

/-- Embedding of `split_start_mid_end` (src lines 1270-1330). Inputs: the main
text, the `main_text_length` attribute (`None` makes the `< 100` comparison
raise `TypeError`, caught by the handler which leaves the segments unset), and
the current `short_SME_flag`. Output: the persisted `(start, mid, end)`
segments (or `None` when the guard skips the file or a segment is empty) and
the resulting `short_SME_flag`. The word list is the space-split of the text
and `main_text_length` is recomputed locally as its length. -/
def split_start_mid_end (main_text : List Char) (main_text_length : Option Nat)
    (short_SME_flag : Bool) : Option (List Char × List Char × List Char) × Bool :=
  if main_text.isEmpty || (stripWS main_text).isEmpty || pyIsSpaceStr main_text then
    (none, short_SME_flag)
  else
    match main_text_length with
    | none => (none, short_SME_flag)
    | some n =>
      if n < 100 then (none, short_SME_flag)
      else if (splitSp main_text).length ≥ 4500 then
        (smeGuardTriple
          (joinSp ((splitSp main_text).take 1500))
          (joinSp (((splitSp main_text).drop (((splitSp main_text).length - 1500) / 2)).take 1500))
          (joinSp ((splitSp main_text).drop ((splitSp main_text).length - 1500))),
         short_SME_flag)
      else
        (smeGuardTriple
          (joinSp ((splitSp main_text).take ((splitSp main_text).length / 3)))
          (joinSp (((splitSp main_text).drop ((splitSp main_text).length / 3)).take
            ((splitSp main_text).length / 3)))
          (joinSp ((splitSp main_text).drop ((splitSp main_text).length / 3 * 2))),
         true)

theorem splitSp_ne_nil (l : List Char) : splitSp l ≠ [] := by
  cases l with
  | nil => simp [splitSp]
  | cons c cs =>
    rw [splitSp]
    rcases h : splitSp cs with _ | ⟨w, rest⟩
    · simp
    · by_cases hc : c = ' ' <;> simp [hc]

theorem splitSp_single (w : List Char) (hw : ∀ c ∈ w, ¬(c = ' ')) : splitSp w = [w] := by
  induction w with
  | nil => rfl
  | cons c cs ih =>
    rw [splitSp, ih (fun d hd => hw d (List.mem_cons_of_mem _ hd))]
    simp [hw c (by simp)]

theorem splitSp_append_space (w t : List Char) (hw : ∀ c ∈ w, ¬(c = ' ')) :
    splitSp (w ++ ' ' :: t) = w :: splitSp t := by
  induction w with
  | nil =>
    simp only [List.nil_append]
    rw [splitSp]
    rcases h : splitSp t with _ | ⟨v, rest⟩
    · exact absurd h (splitSp_ne_nil t)
    · simp
  | cons c cs ih =>
    rw [List.cons_append, splitSp, ih (fun d hd => hw d (List.mem_cons_of_mem _ hd))]
    simp [hw c (by simp)]

theorem splitSp_joinSp (ws : List (List Char)) (hne : ws ≠ [])
    (hw : ∀ w ∈ ws, ∀ c ∈ w, ¬(c = ' ')) :
    splitSp (joinSp ws) = ws := by
  induction ws with
  | nil => exact absurd rfl hne
  | cons w rest ih =>
    cases rest with
    | nil =>
      rw [joinSp]
      exact splitSp_single w (hw w (by simp))
    | cons w2 rest2 =>
      rw [joinSp, splitSp_append_space w _ (hw w (by simp)),
        ih (by simp) (fun v hv c hc => hw v (List.mem_cons_of_mem _ hv) c hc)]

theorem joinSp_not_empty (ws : List (List Char)) (hne : ws ≠ [])
    (hh : ws.head? >>= (fun w => w.head?) ≠ none) :
    (joinSp ws).isEmpty = false := by
  cases ws with
  | nil => exact absurd rfl hne
  | cons w rest =>
    cases rest with
    | nil =>
      rw [joinSp]
      cases w with
      | nil => simp at hh
      | cons c cs => simp
    | cons w2 rest2 =>
      rw [joinSp]
      cases w with
      | nil => simp at hh
      | cons c cs => simp

theorem stripWS_eq_nil_all_ws (l : List Char) (h : stripWS l = []) :
    ∀ c ∈ l, isPySpace c = true := by
  intro c hc
  have hr : ∀ d ∈ rstripWS l, isPySpace d = true := by
    unfold stripWS lstripWS at h
    intro d hd
    exact List.dropWhile_eq_nil_iff.mp h d hd
  conv at hc => rw [rstripWS_spec l]
  rcases List.mem_append.mp hc with h1 | h2
  · exact hr c h1
  · exact List.mem_takeWhile_imp (List.mem_reverse.mp h2)

theorem mem_joinSp_head (c : Char) (w : List Char) (rest : List (List Char)) (hc : c ∈ w) :
    c ∈ joinSp (w :: rest) := by
  cases rest with
  | nil => exact hc
  | cons w2 rest2 =>
    rw [joinSp]
    exact List.mem_append_left _ hc

theorem sme_guard_false (l : List Char) (c : Char) (hc : c ∈ l) (hws : isPySpace c = false) :
    (l.isEmpty || (stripWS l).isEmpty || pyIsSpaceStr l) = false := by
  have hne : l ≠ [] := by
    intro h
    rw [h] at hc
    simp at hc
  have hstrip : stripWS l ≠ [] := by
    intro h
    rw [stripWS_eq_nil_all_ws l h c hc] at hws
    simp at hws
  have hsp : pyIsSpaceStr l = false := by
    unfold pyIsSpaceStr
    have : l.all isPySpace = false := by
      rcases hall : l.all isPySpace with _ | _
      · rfl
      · rw [List.all_eq_true] at hall
        rw [hall c hc] at hws
        simp at hws
    simp [this]
  simp [List.isEmpty_iff, hne, hstrip, hsp]

theorem joinSp_cons_not_empty (w : List Char) (rest : List (List Char)) (hw : w ≠ []) :
    (joinSp (w :: rest)).isEmpty = false := by
  cases rest with
  | nil =>
    rw [joinSp]
    cases w with
    | nil => exact absurd rfl hw
    | cons c cs => rfl
  | cons w2 rest2 =>
    rw [joinSp]
    cases w with
    | nil => exact absurd rfl hw
    | cons c cs => rfl

theorem joinSp_sub_not_empty (ws ys : List (List Char)) (hsub : ys ⊆ ws) (hys : ys ≠ [])
    (hw : ∀ w ∈ ws, w ≠ []) : (joinSp ys).isEmpty = false := by
  cases ys with
  | nil => exact absurd rfl hys
  | cons w rest => exact joinSp_cons_not_empty w rest (hw w (hsub (by simp)))

theorem split_start_mid_end_words (ws : List (List Char)) (n : Nat) (flag : Bool)
    (hne : ws ≠ []) (hw : ∀ w ∈ ws, w ≠ [] ∧ ∀ c ∈ w, isPySpace c = false)
    (hn : 100 ≤ n) :
    split_start_mid_end (joinSp ws) (some n) flag =
      if (4500 : Nat) ≤ ws.length then
        (smeGuardTriple (joinSp (ws.take 1500))
          (joinSp ((ws.drop ((ws.length - 1500) / 2)).take 1500))
          (joinSp (ws.drop (ws.length - 1500))), flag)
      else
        (smeGuardTriple (joinSp (ws.take (ws.length / 3)))
          (joinSp ((ws.drop (ws.length / 3)).take (ws.length / 3)))
          (joinSp (ws.drop (ws.length / 3 * 2))), true) := by
  have hrt : splitSp (joinSp ws) = ws := by
    refine splitSp_joinSp ws hne (fun w hwm c hc hsp => ?_)
    have := (hw w hwm).2 c hc
    rw [hsp] at this
    simp [isPySpace] at this
  obtain ⟨w, rest, rfl⟩ : ∃ w rest, ws = w :: rest := by
    cases ws with
    | nil => exact absurd rfl hne
    | cons w rest => exact ⟨w, rest, rfl⟩
  obtain ⟨c, cs, hwc⟩ : ∃ c cs, w = c :: cs := by
    rcases hwchk : w with _ | ⟨c, cs⟩
    · exact absurd hwchk (hw w (by simp)).1
    · exact ⟨c, cs, rfl⟩
  have hcmem : c ∈ joinSp (w :: rest) := mem_joinSp_head c w rest (by rw [hwc]; simp)
  have hcws : isPySpace c = false := (hw w (by simp)).2 c (by rw [hwc]; simp)
  unfold split_start_mid_end
  rw [if_neg (by rw [sme_guard_false _ c hcmem hcws]; simp)]
  show (if n < 100 then _ else _) = _
  rw [if_neg (by omega), hrt]

/-- C4 (Excerpt Segmenter budget). For a main text of exactly 6000
space-separated words, `split_start_mid_end` produces `start = words[0:1500]`,
`mid = words[2250:3750]` (the centered window starting at
`(6000-1500)/2 = 2250`), `end = words[4500:6000]`, and the `short_SME_flag`
stays `false`; for a main text of exactly 900 words it sets the flag to `true`
and each of start, mid, end holds exactly 300 words. -/
theorem split_start_mid_end_budget (ws1 ws2 : List (List Char)) (n1 n2 : Nat)
    (hlen1 : ws1.length = 6000)
    (hw1 : ∀ w ∈ ws1, w ≠ [] ∧ ∀ c ∈ w, isPySpace c = false)
    (hn1 : 100 ≤ n1)
    (hlen2 : ws2.length = 900)
    (hw2 : ∀ w ∈ ws2, w ≠ [] ∧ ∀ c ∈ w, isPySpace c = false)
    (hn2 : 100 ≤ n2) :
    split_start_mid_end (joinSp ws1) (some n1) false =
      (some (joinSp (ws1.take 1500), joinSp ((ws1.drop 2250).take 1500),
             joinSp (ws1.drop 4500)), false) ∧
    split_start_mid_end (joinSp ws2) (some n2) false =
      (some (joinSp (ws2.take 300), joinSp ((ws2.drop 300).take 300),
             joinSp (ws2.drop 600)), true) ∧
    (ws2.take 300).length = 300 ∧ ((ws2.drop 300).take 300).length = 300 ∧
    (ws2.drop 600).length = 300 := by
  have hne1 : ws1 ≠ [] := by
    intro h
    rw [h] at hlen1
    simp at hlen1
  have hne2 : ws2 ≠ [] := by
    intro h
    rw [h] at hlen2
    simp at hlen2
  have triple1 : smeGuardTriple (joinSp (ws1.take 1500)) (joinSp ((ws1.drop 2250).take 1500))
      (joinSp (ws1.drop 4500)) =
      some (joinSp (ws1.take 1500), joinSp ((ws1.drop 2250).take 1500), joinSp (ws1.drop 4500)) := by
    unfold smeGuardTriple
    rw [joinSp_sub_not_empty ws1 _ (List.take_subset _ _)
        (by intro h; have := congrArg List.length h; simp [hlen1] at this)
        (fun w hwm => (hw1 w hwm).1),
      joinSp_sub_not_empty ws1 _ (fun a ha => List.drop_subset _ _ (List.take_subset _ _ ha))
        (by intro h; have := congrArg List.length h; simp [hlen1] at this)
        (fun w hwm => (hw1 w hwm).1),
      joinSp_sub_not_empty ws1 _ (List.drop_subset _ _)
        (by intro h; have := congrArg List.length h; simp [hlen1] at this)
        (fun w hwm => (hw1 w hwm).1)]
    rfl
  have triple2 : smeGuardTriple (joinSp (ws2.take 300)) (joinSp ((ws2.drop 300).take 300))
      (joinSp (ws2.drop 600)) =
      some (joinSp (ws2.take 300), joinSp ((ws2.drop 300).take 300), joinSp (ws2.drop 600)) := by
    unfold smeGuardTriple
    rw [joinSp_sub_not_empty ws2 _ (List.take_subset _ _)
        (by intro h; have := congrArg List.length h; simp [hlen2] at this)
        (fun w hwm => (hw2 w hwm).1),
      joinSp_sub_not_empty ws2 _ (fun a ha => List.drop_subset _ _ (List.take_subset _ _ ha))
        (by intro h; have := congrArg List.length h; simp [hlen2] at this)
        (fun w hwm => (hw2 w hwm).1),
      joinSp_sub_not_empty ws2 _ (List.drop_subset _ _)
        (by intro h; have := congrArg List.length h; simp [hlen2] at this)
        (fun w hwm => (hw2 w hwm).1)]
    rfl
  refine ⟨?_, ?_, ?_, ?_, ?_⟩
  · rw [split_start_mid_end_words ws1 n1 false hne1 hw1 hn1, if_pos (by omega), hlen1]
    show (smeGuardTriple (joinSp (ws1.take 1500)) (joinSp ((ws1.drop ((6000 - 1500) / 2)).take 1500))
      (joinSp (ws1.drop (6000 - 1500))), false) = _
    norm_num
    rw [triple1]
  · rw [split_start_mid_end_words ws2 n2 false hne2 hw2 hn2, if_neg (by omega), hlen2]
    show (smeGuardTriple (joinSp (ws2.take (900 / 3))) (joinSp ((ws2.drop (900 / 3)).take (900 / 3)))
      (joinSp (ws2.drop (900 / 3 * 2))), true) = _
    norm_num
    rw [triple2]
  · simp [hlen2]
  · simp [hlen2]
  · simp [hlen2]

/-- Closed witness for C4 at the concrete texts of 6000 single-letter words
and 900 single-letter words. -/
theorem split_start_mid_end_budget_witness :
    split_start_mid_end (joinSp (List.replicate 900 ['b'])) (some 900) false =
      (some (joinSp ((List.replicate 900 ['b']).take 300),
             joinSp (((List.replicate 900 ['b']).drop 300).take 300),
             joinSp ((List.replicate 900 ['b']).drop 600)), true) ∧
    split_start_mid_end (joinSp (List.replicate 6000 ['a'])) (some 6000) false =
      (some (joinSp ((List.replicate 6000 ['a']).take 1500),
             joinSp (((List.replicate 6000 ['a']).drop 2250).take 1500),
             joinSp ((List.replicate 6000 ['a']).drop 4500)), false) := by
  have h := split_start_mid_end_budget (List.replicate 6000 ['a']) (List.replicate 900 ['b'])
    6000 900 (by rw [List.length_replicate])
    (fun w hwm => by rw [List.eq_of_mem_replicate hwm]; exact ⟨by simp, by decide⟩)
    (by norm_num) (by rw [List.length_replicate])
    (fun w hwm => by rw [List.eq_of_mem_replicate hwm]; exact ⟨by simp, by decide⟩)
    (by norm_num)
  exact ⟨h.2.1, h.1⟩

/-- Bounding box of a connected component, as returned by
`skimage.measure.regionprops(...)[i].bbox`: `(min_row, min_col, max_row,
max_col)`. The connected-component labelling itself is an external library
call; the Line Detector claims constrain only the filtering of its output, so
the component list is taken as an arbitrary input. -/
structure Region where
  min_row : Nat
  min_col : Nat
  max_row : Nat
  max_col : Nat

/-- Embedding of the candidate filter of `find_horizontal_lines`
(src lines 859-894): a component is accepted as a horizontal-line candidate
iff its row-span is at most the thickness tolerance, its column-span exceeds
the minimum length, and its top row is strictly below the blind-spot offset
`blindspot * image_height`; accepted components are reported as
`(min_row, length)` pairs. -/
def find_horizontal_lines (props : List Region) (image_height : Nat) (blindspot : ℚ)
    (thickness_tolerance : Nat) (min_length : Nat) : List (Nat × Nat) :=
  (props.filter (fun r =>
    decide (r.max_row - r.min_row ≤ thickness_tolerance) &&
    decide (r.max_col - r.min_col > min_length) &&
    decide ((r.min_row : ℚ) > blindspot * image_height))).map
    (fun r => (r.min_row, r.max_col - r.min_col))

theorem find_horizontal_lines_mem_spec (props : List Region) (image_height : Nat)
    (blindspot : ℚ) (thickness_tolerance min_length : Nat) (pr : Nat × Nat)
    (hpr : pr ∈ find_horizontal_lines props image_height blindspot thickness_tolerance
      min_length) :
    ∃ r ∈ props, pr = (r.min_row, r.max_col - r.min_col) ∧
      r.max_row - r.min_row ≤ thickness_tolerance ∧
      min_length < r.max_col - r.min_col ∧
      (pr.1 : ℚ) > blindspot * image_height := by
  unfold find_horizontal_lines at hpr
  rcases List.mem_map.mp hpr with ⟨r, hrmem, hreq⟩
  have hrf := List.mem_filter.mp hrmem
  have hcond := hrf.2
  simp only [Bool.and_eq_true, decide_eq_true_eq] at hcond
  exact ⟨r, hrf.1, hreq.symm, hcond.1.1, hcond.1.2, by rw [← hreq]; exact hcond.2⟩

/-- C5 (Line Detector candidate filter). Every candidate returned by
`find_horizontal_lines` comes from a component whose row-span is at most the
thickness tolerance, whose column-span exceeds the minimum length, and whose
top row is strictly below the blind-spot cutoff `blindspot * image_height`;
in particular no returned candidate lies at or above the cutoff, whatever the
page and parameters. -/
theorem find_horizontal_lines_sound (props : List Region) (image_height : Nat)
    (blindspot : ℚ) (thickness_tolerance min_length : Nat) (pr : Nat × Nat)
    (hpr : pr ∈ find_horizontal_lines props image_height blindspot thickness_tolerance
      min_length) :
    ∃ r ∈ props, pr = (r.min_row, r.max_col - r.min_col) ∧
      r.max_row - r.min_row ≤ thickness_tolerance ∧
      min_length < r.max_col - r.min_col ∧
      (pr.1 : ℚ) > blindspot * image_height :=
  find_horizontal_lines_mem_spec props image_height blindspot thickness_tolerance
    min_length pr hpr

/-- Closed witness for C5: a thin long component below the cutoff is returned
and satisfies all three filter conditions. -/
theorem find_horizontal_lines_sound_witness :
    (50, 200) ∈ find_horizontal_lines [⟨50, 3, 51, 203⟩] 100 (1/4 : ℚ) 2 100 ∧
    ∃ r ∈ [(⟨50, 3, 51, 203⟩ : Region)], ((50 : Nat), (200 : Nat)) =
        (r.min_row, r.max_col - r.min_col) ∧
      r.max_row - r.min_row ≤ 2 ∧ 100 < r.max_col - r.min_col ∧
      ((50 : Nat) : ℚ) > (1/4 : ℚ) * 100 := by
  have hmem : ((50 : Nat), (200 : Nat)) ∈
      find_horizontal_lines [⟨50, 3, 51, 203⟩] 100 (1/4 : ℚ) 2 100 := by
    unfold find_horizontal_lines
    simp only [List.filter, List.map]
    norm_num
  exact ⟨hmem, find_horizontal_lines_sound [⟨50, 3, 51, 203⟩] 100 (1/4 : ℚ) 2 100 _ hmem⟩

/-- C10 (blind-spot test is strict). Because the filter compares the top row
with the cutoff by a strict `>`, a component whose top row equals
`blindspot * image_height` exactly is never returned; with the `blindspot`
argument `0` — the value `fns_and_main_processing` passes for every page
after the first — this means a component with top row `0` is never returned. -/
theorem find_horizontal_lines_blindspot_strict (props : List Region) (image_height : Nat)
    (blindspot : ℚ) (thickness_tolerance min_length : Nat) (row len : Nat)
    (hrow : (row : ℚ) = blindspot * image_height) :
    (row, len) ∉ find_horizontal_lines props image_height blindspot thickness_tolerance
      min_length := by
  intro hmem
  rcases find_horizontal_lines_mem_spec props image_height blindspot thickness_tolerance
    min_length (row, len) hmem with ⟨r, _, _, _, _, hgt⟩
  rw [← hrow] at hgt
  exact lt_irrefl _ hgt

/-- Closed witness for C10: with blindspot `0`, a component whose top row is
`0` (top of the page) passes the size tests but is not returned. -/
theorem find_horizontal_lines_blindspot_strict_witness :
    ((0 : Nat) : ℚ) = (0 : ℚ) * 100 ∧
    ((0, 200) ∉ find_horizontal_lines [⟨0, 3, 1, 203⟩] 100 (0 : ℚ) 2 100) :=
  ⟨by norm_num,
   find_horizontal_lines_blindspot_strict [⟨0, 3, 1, 203⟩] 100 0 2 100 0 200 (by norm_num)⟩

/-- Insertion step of a stable sort by footnote number: the new element goes
after every element with a smaller-or-equal number. -/
def insertByNum (x : Nat × List Char) : List (Nat × List Char) → List (Nat × List Char)
  | [] => [x]
  | y :: ys => if y.1 ≤ x.1 then y :: insertByNum x ys else x :: y :: ys

/-- Embedding of `matches.sort(key=lambda x: x[0])` (src line 1163): a stable
sort by the first tuple component, here as an insertion sort (Python's sort
is stable, and stability is what `remove_duplicates`' first-occurrence rule
depends on). -/
def sortMatches (l : List (Nat × List Char)) : List (Nat × List Char) :=
  l.foldl (fun acc x => insertByNum x acc) []

/-- Helper for `remove_duplicates`: `seen` is the set of footnote numbers
already emitted. -/
def dedupAux : List (Nat × List Char) → List Nat → List (Nat × List Char)
  | [], _ => []
  | x :: xs, seen =>
    if x.1 ∈ seen then dedupAux xs seen else x :: dedupAux xs (x.1 :: seen)

/-- Embedding of `remove_duplicates` (src lines 1117-1137): keep the first
occurrence of every footnote number, in order. (The source's early return for
lists of length at most 1 returns the same value.) -/
def remove_duplicates (l : List (Nat × List Char)) : List (Nat × List Char) := dedupAux l []

/-- Embedding of `is_sequential` (src lines 1107-1115): every element's number
is one less than its successor's. -/
def is_sequential : List (Nat × List Char) → Bool
  | a :: b :: rest => (a.1 + 1 == b.1) && is_sequential (b :: rest)
  | _ => true

/-- The forward scan of src lines 1169-1173: the first element of the first
sequential triplet of consecutive matches, if any. -/
def findFirstTriplet : List (Nat × List Char) → Option Nat
  | a :: b :: c :: rest =>
    if is_sequential [a, b, c] then some a.1 else findFirstTriplet (b :: c :: rest)
  | _ => none

/-- The backward scan of src lines 1175-1179: the last element of the last
sequential triplet of consecutive matches, if any. -/
def findLastTriplet : List (Nat × List Char) → Option Nat
  | a :: b :: c :: rest =>
    match findLastTriplet (b :: c :: rest) with
    | some x => some x
    | none => if is_sequential [a, b, c] then some c.1 else none
  | _ => none

/-- The fields of the paper record that `extract_first_last_total_fns`
populates, plus whether the error handler logged. -/
structure FnsRes where
  first_fn_num : Option Nat
  last_fn_num : Option Nat
  total_fns : Option Nat
  first_fn_text : Option (List Char)
  last_fn_text : Option (List Char)
  errLogged : Bool
deriving DecidableEq

/-- The sanity check of src lines 1182-1185: with more than 3 matches and
both boundary numbers computed, a last number at most the first discards
both. -/
def fns_sanity (n : Nat) (first_fn last_fn : Option Nat) : Option Nat × Option Nat :=
  if n > 3 then
    match first_fn, last_fn with
    | some f, some l => if l ≤ f then (none, none) else (some f, some l)
    | fo, lo => (fo, lo)
  else (first_fn, last_fn)

/-- The assignments of src lines 1187-1203 together with the handler of src
lines 1205-1209. With both numbers present, the fields are set, `total_fns`
is `last - first + 1` when `last >= first`, and the boundary texts are the
first occurrence forward resp. backward. When either number is `None`,
Python's `paper.last_fn_num >= paper.first_fn_num` comparison raises
`TypeError`; the `except` block logs and resets all five fields to `None`. -/
def fns_assign (ms : List (Nat × List Char)) : Option Nat × Option Nat → FnsRes
  | (some f, some l) =>
    { first_fn_num := some f
      last_fn_num := some l
      total_fns := if f ≤ l then some (l - f + 1) else none
      first_fn_text := (ms.find? (fun m => m.1 == f)).map (fun m => m.2)
      last_fn_text := (ms.reverse.find? (fun m => m.1 == l)).map (fun m => m.2)
      errLogged := false }
  | _ => ⟨none, none, none, none, none, true⟩

/-- Src lines 1182-1209 of `extract_first_last_total_fns`, taken at the
program point where the deduplicated sorted matches and the two boundary
numbers computed by the triplet scans are in scope. -/
def fns_tail (ms : List (Nat × List Char)) (first_fn last_fn : Option Nat) : FnsRes :=
  fns_assign ms (fns_sanity ms.length first_fn last_fn)

/-- Embedding of `extract_first_last_total_fns` (src lines 1088-1209) on the
list of regex matches `(number, matched line)` extracted from the footnote
lines: sort by number, drop later duplicates, return untouched fields when no
matches remain, and otherwise run the triplet scans, the sanity check and the
field assignments. -/
def extract_first_last_total_fns (matches0 : List (Nat × List Char)) : FnsRes :=
  if remove_duplicates (sortMatches matches0) = [] then ⟨none, none, none, none, none, false⟩
  else fns_tail (remove_duplicates (sortMatches matches0))
    (findFirstTriplet (remove_duplicates (sortMatches matches0)))
    (findLastTriplet (remove_duplicates (sortMatches matches0)))

/-- Numeric shadow of `insertByNum` on footnote numbers alone. -/
def insertN (x : Nat) : List Nat → List Nat
  | [] => [x]
  | y :: ys => if y ≤ x then y :: insertN x ys else x :: y :: ys

/-- Numeric shadow of `sortMatches`. -/
def sortN (l : List Nat) : List Nat := l.foldl (fun acc x => insertN x acc) []

/-- Numeric shadow of `dedupAux`. -/
def dedupAuxN : List Nat → List Nat → List Nat
  | [], _ => []
  | x :: xs, seen => if x ∈ seen then dedupAuxN xs seen else x :: dedupAuxN xs (x :: seen)

/-- Numeric shadow of `is_sequential`. -/
def isSeqN : List Nat → Bool
  | a :: b :: rest => (a + 1 == b) && isSeqN (b :: rest)
  | _ => true

/-- Numeric shadow of `findFirstTriplet`. -/
def findFirstTripletN : List Nat → Option Nat
  | a :: b :: c :: rest =>
    if isSeqN [a, b, c] then some a else findFirstTripletN (b :: c :: rest)
  | _ => none

/-- Numeric shadow of `findLastTriplet`. -/
def findLastTripletN : List Nat → Option Nat
  | a :: b :: c :: rest =>
    match findLastTripletN (b :: c :: rest) with
    | some x => some x
    | none => if isSeqN [a, b, c] then some c else none
  | _ => none

theorem insertByNum_map_fst (x : Nat × List Char) (acc : List (Nat × List Char)) :
    (insertByNum x acc).map Prod.fst = insertN x.1 (acc.map Prod.fst) := by
  induction acc with
  | nil => rfl
  | cons y ys ih =>
    show (if y.1 ≤ x.1 then y :: insertByNum x ys else x :: y :: ys).map Prod.fst =
      if y.1 ≤ x.1 then y.1 :: insertN x.1 (ys.map Prod.fst)
      else x.1 :: y.1 :: ys.map Prod.fst
    by_cases h : y.1 ≤ x.1
    · rw [if_pos h, if_pos h, List.map_cons, ih]
    · rw [if_neg h, if_neg h]
      rfl

theorem sortMatches_map_fst_aux (l : List (Nat × List Char)) (acc : List (Nat × List Char)) :
    (l.foldl (fun acc x => insertByNum x acc) acc).map Prod.fst =
      (l.map Prod.fst).foldl (fun acc x => insertN x acc) (acc.map Prod.fst) := by
  induction l generalizing acc with
  | nil => rfl
  | cons y ys ih =>
    rw [List.foldl_cons, List.map_cons, List.foldl_cons, ih, insertByNum_map_fst]

theorem sortMatches_map_fst (l : List (Nat × List Char)) :
    (sortMatches l).map Prod.fst = sortN (l.map Prod.fst) :=
  sortMatches_map_fst_aux l []

theorem dedupAux_map_fst (l : List (Nat × List Char)) (seen : List Nat) :
    (dedupAux l seen).map Prod.fst = dedupAuxN (l.map Prod.fst) seen := by
  induction l generalizing seen with
  | nil => rfl
  | cons x xs ih =>
    show (if x.1 ∈ seen then dedupAux xs seen else x :: dedupAux xs (x.1 :: seen)).map Prod.fst =
      if x.1 ∈ seen then dedupAuxN (xs.map Prod.fst) seen
      else x.1 :: dedupAuxN (xs.map Prod.fst) (x.1 :: seen)
    by_cases h : x.1 ∈ seen
    · rw [if_pos h, if_pos h, ih]
    · rw [if_neg h, if_neg h, List.map_cons, ih]

theorem remove_duplicates_map_fst (l : List (Nat × List Char)) :
    (remove_duplicates l).map Prod.fst = dedupAuxN (l.map Prod.fst) [] :=
  dedupAux_map_fst l []

theorem is_sequential_map_fst (sub : List (Nat × List Char)) :
    is_sequential sub = isSeqN (sub.map Prod.fst) := by
  induction sub with
  | nil => rfl
  | cons a rest ih =>
    cases rest with
    | nil => rfl
    | cons b rest2 =>
      show ((a.1 + 1 == b.1) && is_sequential (b :: rest2)) =
        ((a.1 + 1 == b.1) && isSeqN ((b :: rest2).map Prod.fst))
      rw [ih]

theorem findFirstTriplet_map_fst (l : List (Nat × List Char)) :
    findFirstTriplet l = findFirstTripletN (l.map Prod.fst) := by
  induction l with
  | nil => rfl
  | cons a tail ih =>
    cases tail with
    | nil => rfl
    | cons b tail2 =>
      cases tail2 with
      | nil => rfl
      | cons c rest =>
        show (if is_sequential [a, b, c] then some a.1 else findFirstTriplet (b :: c :: rest)) =
          if isSeqN [a.1, b.1, c.1] then some a.1
          else findFirstTripletN ((b :: c :: rest).map Prod.fst)
        have hseq : is_sequential [a, b, c] = isSeqN [a.1, b.1, c.1] := by
          have := is_sequential_map_fst [a, b, c]
          simpa using this
        rw [hseq, ih]

theorem findLastTriplet_map_fst (l : List (Nat × List Char)) :
    findLastTriplet l = findLastTripletN (l.map Prod.fst) := by
  induction l with
  | nil => rfl
  | cons a tail ih =>
    cases tail with
    | nil => rfl
    | cons b tail2 =>
      cases tail2 with
      | nil => rfl
      | cons c rest =>
        show (match findLastTriplet (b :: c :: rest) with
              | some x => some x
              | none => if is_sequential [a, b, c] then some c.1 else none) =
          (match findLastTripletN ((b :: c :: rest).map Prod.fst) with
           | some x => some x
           | none => if isSeqN [a.1, b.1, c.1] then some c.1 else none)
        have hseq : is_sequential [a, b, c] = isSeqN [a.1, b.1, c.1] := by
          have := is_sequential_map_fst [a, b, c]
          simpa using this
        rw [hseq, ih]

/-- C3 (Footnote Reconciler boundaries and dedup-before-count). When the
sorted, deduplicated footnote matches are numbered `[1,2,3,4,7,8,9]`, the
forward scan sets `first_fn_num = 1` (first element of the first sequential
triplet) and the backward scan sets `last_fn_num = 9` (last element of the
last sequential triplet, here `[7,8,9]`). When the extracted matches are
numbered `[1,1,2,3]`, the duplicate `1` is removed before counting, so
`total_fns = 3`. -/
theorem footnote_boundaries_and_dedup (ms1 ms2 : List (Nat × List Char)) :
    ((remove_duplicates (sortMatches ms1)).map Prod.fst = [1, 2, 3, 4, 7, 8, 9] →
      (extract_first_last_total_fns ms1).first_fn_num = some 1 ∧
      (extract_first_last_total_fns ms1).last_fn_num = some 9) ∧
    (ms2.map Prod.fst = [1, 1, 2, 3] →
      (extract_first_last_total_fns ms2).total_fns = some 3) := by
  constructor
  · intro h
    have hne : remove_duplicates (sortMatches ms1) ≠ [] := by
      intro h0
      rw [h0] at h
      simp at h
    have hfft : findFirstTriplet (remove_duplicates (sortMatches ms1)) = some 1 := by
      rw [findFirstTriplet_map_fst, h]
      rfl
    have hflt : findLastTriplet (remove_duplicates (sortMatches ms1)) = some 9 := by
      rw [findLastTriplet_map_fst, h]
      rfl
    have hlen : (remove_duplicates (sortMatches ms1)).length = 7 := by
      have := congrArg List.length h
      simpa using this
    unfold extract_first_last_total_fns
    rw [if_neg hne]
    unfold fns_tail
    rw [hfft, hflt, hlen]
    have hs : fns_sanity 7 (some 1) (some 9) = (some 1, some 9) := by decide
    rw [hs]
    exact ⟨rfl, rfl⟩
  · intro h
    have hsorted : (sortMatches ms2).map Prod.fst = [1, 1, 2, 3] := by
      rw [sortMatches_map_fst, h]
      rfl
    have hded : (remove_duplicates (sortMatches ms2)).map Prod.fst = [1, 2, 3] := by
      rw [remove_duplicates_map_fst, hsorted]
      rfl
    have hne : remove_duplicates (sortMatches ms2) ≠ [] := by
      intro h0
      rw [h0] at hded
      simp at hded
    have hfft : findFirstTriplet (remove_duplicates (sortMatches ms2)) = some 1 := by
      rw [findFirstTriplet_map_fst, hded]
      rfl
    have hflt : findLastTriplet (remove_duplicates (sortMatches ms2)) = some 3 := by
      rw [findLastTriplet_map_fst, hded]
      rfl
    have hlen : (remove_duplicates (sortMatches ms2)).length = 3 := by
      have := congrArg List.length hded
      simpa using this
    unfold extract_first_last_total_fns
    rw [if_neg hne]
    unfold fns_tail
    rw [hfft, hflt, hlen]
    have hs : fns_sanity 3 (some 1) (some 3) = (some 1, some 3) := by decide
    rw [hs]
    rfl

/-- Closed witness for C3 at concrete match lists realising the two numbering
scenarios. -/
theorem footnote_boundaries_and_dedup_witness :
    (extract_first_last_total_fns
      [(1, ['a']), (2, ['b']), (3, ['c']), (4, ['d']), (7, ['e']), (8, ['f']),
       (9, ['g'])]).first_fn_num = some 1 ∧
    (extract_first_last_total_fns
      [(1, ['a']), (2, ['b']), (3, ['c']), (4, ['d']), (7, ['e']), (8, ['f']),
       (9, ['g'])]).last_fn_num = some 9 ∧
    (extract_first_last_total_fns
      [(1, ['a']), (1, ['b']), (2, ['c']), (3, ['d'])]).total_fns = some 3 := by
  have h := footnote_boundaries_and_dedup
    [(1, ['a']), (2, ['b']), (3, ['c']), (4, ['d']), (7, ['e']), (8, ['f']), (9, ['g'])]
    [(1, ['a']), (1, ['b']), (2, ['c']), (3, ['d'])]
  have h1 := h.1 (by decide)
  have h2 := h.2 (by decide)
  exact ⟨h1.1, h1.2, h2⟩

/-- C6 (indeterminate footnote range is discarded). At the program point of
src lines 1182-1209 — the deduplicated matches together with the boundary
numbers computed by the triplet scans — whenever there are more than 3
matches and the computed last number is at most the computed first, the
sanity check clears both, the subsequent `None >= None` comparison raises,
and the handler leaves `first_fn_num`, `last_fn_num` and `total_fns` all
unset (`None`) and logs the condition. -/
theorem fns_sanity_discards_nonsensical_range (ms : List (Nat × List Char)) (f l : Nat)
    (hn : ms.length > 3) (hle : l ≤ f) :
    fns_tail ms (some f) (some l) = ⟨none, none, none, none, none, true⟩ := by
  unfold fns_tail fns_sanity
  rw [if_pos hn]
  show fns_assign ms (if l ≤ f then (none, none) else (some f, some l)) = _
  rw [if_pos hle]
  rfl

/-- Closed witness for C6: four matches with the boundary numbers both `9`. -/
theorem fns_sanity_discards_nonsensical_range_witness :
    fns_tail [(5, ['a']), (6, ['b']), (7, ['c']), (9, ['d'])] (some 9) (some 9) =
      ⟨none, none, none, none, none, true⟩ :=
  fns_sanity_discards_nonsensical_range [(5, ['a']), (6, ['b']), (7, ['c']), (9, ['d'])]
    9 9 (by decide) (by decide)

/-- The `if exclude_start:` trim of `read_partial_file` (src lines 1362-1363):
drop the first `es` words, skipped when `es` is zero (falsy). -/
def rpfDropStart (ws : List (List Char)) (es : Nat) : List (List Char) :=
  if es ≠ 0 then ws.drop es else ws

/-- The `if exclude_end:` trim of `read_partial_file` (src lines 1364-1365):
Python `words[:-ee]`, skipped when `ee` is zero (falsy). -/
def rpfDropEnd (ws : List (List Char)) (ee : Nat) : List (List Char) :=
  if ee ≠ 0 then ws.take (ws.length - ee) else ws

/-- Embedding of `read_partial_file` (src lines 1348-1366) on the file
content: split into whitespace words, trim from the front and the back, and
rejoin with single spaces. -/
def read_partial_file (content : List Char) (exclude_start exclude_end : Nat) : List Char :=
  joinSp (rpfDropEnd (rpfDropStart (pySplit content) exclude_start) exclude_end)

/-- The five-line dotted separator of src line 1384: `"\n" + ".....\n" * 5`. -/
def SME_separator : List Char := "\n.....\n.....\n.....\n.....\n.....\n".toList

/-- The number of words excluded from a boundary segment in the short merge
(src lines 1403-1410): 500 when the combined three-segment word count is at
least 2000, otherwise `int(segment_count * ignore_factor)` (embedded as the
rational floor; the counts come from `count_words_in_file`, whitespace
split). -/
def smeExclude (total segment : Nat) (ignore_factor : ℚ) : Nat :=
  if total ≥ 2000 then 500 else (⌊(segment : ℚ) * ignore_factor⌋).toNat

/-- Embedding of `merge_SME` (src lines 1334-1422). Inputs: the title, the
three segment file contents (`None` models an unset attribute), the two
flags, and the ignore factor (default `0.6`, embedded as `3/5`). Output:
`None` when the function returns early — any segment attribute missing, or
`general_length_problem_flag` set — in which case `paper.SME` is never
assigned and no file is written; otherwise the content of the merged file.
The non-short branch joins the three segments with the dotted separator; the
short branch concatenates them with no separator, trimming the start of
`start` and the end of `end` by the excluded word counts. -/
def merge_SME (title : List Char) (start mid end_ : Option (List Char))
    (general_length_problem_flag short_SME_flag : Bool) (ignore_factor : ℚ) :
    Option (List Char) :=
  match start, mid, end_ with
  | some s, some m, some e =>
    if general_length_problem_flag then none
    else if short_SME_flag = false then
      some (title ++ ":\n".toList ++ read_partial_file s 0 0 ++ SME_separator ++
        read_partial_file m 0 0 ++ SME_separator ++ read_partial_file e 0 0 ++
        "\n".toList ++ title)
    else
      some (title ++ ":\n".toList ++
        read_partial_file s
          (smeExclude (countW s + countW m + countW e) (countW s) ignore_factor) 0 ++
        read_partial_file m 0 0 ++
        read_partial_file e 0
          (smeExclude (countW s + countW m + countW e) (countW e) ignore_factor) ++
        "\n".toList ++ title)
  | _, _, _ => none

theorem rpfDropStart_eq (ws : List (List Char)) (n : Nat) : rpfDropStart ws n = ws.drop n := by
  unfold rpfDropStart
  by_cases h : n ≠ 0
  · rw [if_pos h]
  · rw [if_neg h, show n = 0 by omega, List.drop_zero]

theorem rpfDropEnd_eq (ws : List (List Char)) (n : Nat) :
    rpfDropEnd ws n = ws.take (ws.length - n) := by
  unfold rpfDropEnd
  by_cases h : n ≠ 0
  · rw [if_pos h]
  · rw [if_neg h, show n = 0 by omega, Nat.sub_zero, List.take_length]

theorem smeExclude_default (total seg : Nat) :
    smeExclude total seg (3 / 5 : ℚ) = if 2000 ≤ total then 500 else 3 * seg / 5 := by
  unfold smeExclude
  by_cases h : 2000 ≤ total
  · rw [if_pos h, if_pos h]
  · rw [if_neg h, if_neg h]
    have h1 : (seg : ℚ) * (3 / 5) = ((3 * seg : ℤ) : ℚ) / ((5 : ℕ) : ℚ) := by
      push_cast
      ring
    rw [h1, Rat.floor_intCast_div_natCast]
    omega

/-- C7 (short-document merge). With the three segment artifacts present, the
length-problem flag clear, the short flag set, and the default ignore factor
`0.6`, `merge_SME` concatenates start, mid and end with no separator
(wrapped in the title lines): the first `N_start` words of `start` and the
last `N_end` words of `end` are removed, where each boundary `N` is `500`
when the combined word count of the three segments is at least `2000`, and
otherwise the floor of `0.6` times that boundary segment's own word count. -/
theorem merge_SME_short_trim (title s m e : List Char) :
    merge_SME title (some s) (some m) (some e) false true (3 / 5 : ℚ) =
      some (title ++ ":\n".toList ++
        joinSp ((pySplit s).drop
          (if 2000 ≤ countW s + countW m + countW e then 500 else 3 * countW s / 5)) ++
        joinSp (pySplit m) ++
        joinSp ((pySplit e).take ((pySplit e).length -
          (if 2000 ≤ countW s + countW m + countW e then 500 else 3 * countW e / 5))) ++
        "\n".toList ++ title) := by
  show some (title ++ ":\n".toList ++
      read_partial_file s
        (smeExclude (countW s + countW m + countW e) (countW s) (3 / 5 : ℚ)) 0 ++
      read_partial_file m 0 0 ++
      read_partial_file e 0
        (smeExclude (countW s + countW m + countW e) (countW e) (3 / 5 : ℚ)) ++
      "\n".toList ++ title) = _
  unfold read_partial_file
  rw [smeExclude_default, smeExclude_default, rpfDropStart_eq, rpfDropStart_eq,
    rpfDropStart_eq, rpfDropEnd_eq, rpfDropEnd_eq, rpfDropEnd_eq]
  rw [List.drop_zero, List.drop_zero, Nat.sub_zero, Nat.sub_zero, List.take_length,
    List.take_length]

/-- C9 (length-problem guard). Even when the start, mid and end artifacts all
exist, a set `general_length_problem_flag` makes `merge_SME` return before
the merged file path is assigned or anything is written: no merged excerpt is
produced (`None`), whatever the short flag and ignore factor. -/
theorem merge_SME_length_problem_skips (title s m e : List Char) (shortFlag : Bool)
    (ignore_factor : ℚ) :
    merge_SME title (some s) (some m) (some e) true shortFlag ignore_factor = none := rfl
